import Mathlib

/-!
Shallow embedding of the allocation/accrual engine in `src/engine.py` of the
`oasishorizon` repository.

Conventions of the embedding:
* Python `datetime.date` values are embedded as their proleptic-Gregorian day
  ordinal (`ℤ`), exactly the value returned by Python's `date.toordinal()`.
  Date comparison and `(d2 - d1).days` in the source become integer comparison
  and subtraction of ordinals, which is faithful because `toordinal` is an
  order isomorphism from calendar dates.
* Monetary floats are embedded as `ℚ` (the claims are about the exact
  arithmetic the code performs, up to floating tolerance).
* A pandas contribution DataFrame (index of dates, columns `Antoine`,
  `New investor`, `Total plan`) is a `List ContribRow`.
* The participant string keys `"Antoine"`, `"New investor"`,
  `"Other investors"` become the inductive type `Col`.
* A price series lookup `float(ps.loc[pd.Timestamp(when)])` performed after
  `_ensure_on_series` is abstracted as an explicit parameter `price_t : ℚ`:
  every theorem below quantifies over it, so the results cover every price
  series and every interpolation outcome.
-/

namespace OasisHorizon

/-- Gregorian leap-year test, as in Python's `calendar.isleap`. -/
def isLeap (y : ℕ) : Bool :=
  y % 4 == 0 && (y % 100 != 0 || y % 400 == 0)

/-- Length of month `m` (1–12) in year `y`. -/
def monthLen (y m : ℕ) : ℕ :=
  if m = 2 then (if isLeap y then 29 else 28)
  else if m = 4 ∨ m = 6 ∨ m = 9 ∨ m = 11 then 30
  else 31

/-- Days in year `y` strictly before month `m`. -/
def daysBeforeMonth (y m : ℕ) : ℕ :=
  ((List.range (m - 1)).map (fun k => monthLen y (k + 1))).sum

/-- Proleptic-Gregorian day ordinal of the calendar date `y-m-d`, identical to
Python's `datetime.date(y, m, d).toordinal()` (so `toOrd 1 1 1 = 1`). -/
def toOrd (y m d : ℕ) : ℤ :=
  365 * ((y : ℤ) - 1) + ((y - 1) / 4 : ℕ) - ((y - 1) / 100 : ℕ) + ((y - 1) / 400 : ℕ)
    + (daysBeforeMonth y m : ℤ) + (d : ℤ)

/-- `ACQ_DATE = date(2024, 9, 30)` from `engine.py`. -/
def ACQ_DATE : ℤ := toOrd 2024 9 30

/-- `ACQ_PRICE = 11_800_000.0` from `engine.py`. -/
def ACQ_PRICE : ℚ := 11800000

/-- `EXIT_RATE_CUTOFF = date(2028, 9, 30)` from `engine.py`: if sell or exit on
or after this date then 20% p.a., else 15% p.a. -/
def EXIT_RATE_CUTOFF : ℤ := toOrd 2028 9 30

/-- One row of a contribution DataFrame: the date index entry and the columns
`Antoine`, `New investor`, `Total plan`. -/
structure ContribRow where
  date : ℤ
  antoine : ℚ
  newInvestor : ℚ
  totalPlan : ℚ
  deriving DecidableEq, Repr

/-- A contribution DataFrame (`contrib_df`): a list of rows, one per
investment-window date. -/
abbrev ContribTable := List ContribRow

/-- The three participant roles (string keys in the source). -/
inductive Col where
  | antoine
  | newInvestor
  | otherInvestors
  deriving DecidableEq, Repr

/-- `pandas.Series.clip(lower=0.0)` on a single value. -/
def clip0 (x : ℚ) : ℚ := max x 0

/-- The derived `Other investors` value of one row:
`(Total plan - Antoine - New investor).clip(lower=0.0)`
(lines 93 and 191–194 of `engine.py`). -/
def residualOf (r : ContribRow) : ℚ :=
  clip0 (r.totalPlan - r.antoine - r.newInvestor)

/-- Value of one participant column on one row; `Other investors` is the
clamped residual derived from the row. -/
def rowVal (r : ContribRow) : Col → ℚ
  | Col.antoine => r.antoine
  | Col.newInvestor => r.newInvestor
  | Col.otherInvestors => residualOf r

/-- `df[col].reindex(idx_daily, method=None).fillna(0.0)` evaluated at the
daily label `d`: the row whose date is `d` if the table has one, else `0`.
(pandas `reindex` requires unique labels; tables with duplicate dates make the
source raise, so theorems that need it carry a `Nodup` hypothesis.) -/
def reindexVal (tbl : ContribTable) (c : Col) (d : ℤ) : ℚ :=
  match tbl.find? (fun r => r.date == d) with
  | some r => rowVal r c
  | none => 0

/-- The `.cumsum()` of the reindexed daily column, evaluated at day `d` of the
daily index starting at `acq`: the sum of the daily values on days
`acq, acq+1, …, d`. -/
def cumBalance (tbl : ContribTable) (acq : ℤ) (c : Col) (d : ℤ) : ℚ :=
  ((List.range ((d - acq).toNat + 1)).map
    (fun k : ℕ => reindexVal tbl c (acq + (k : ℤ)))).sum

/-- The DataFrame returned by `build_daily_invested`: a daily index from `lo`
to `hi` with the three cumulative participant columns and the stored `Total`
column. The column functions are meaningful on days `lo ≤ d ≤ hi`; access
outside that range goes through `frameAt`. -/
structure DailyFrame where
  lo : ℤ
  hi : ℤ
  bal : Col → ℤ → ℚ
  total : ℤ → ℚ

/-- `build_daily_invested(contrib_df, acq_date, end_date)` (lines 89–100 of
`engine.py`): derive the clamped `Other investors` residual, reindex each
column onto the daily index `[acq_date, end_date]`, fill missing days with 0,
take the cumulative sum, and store `Total` as the row-sum of the three
cumulative columns. -/
def build_daily_invested (tbl : ContribTable) (acq endD : ℤ) : DailyFrame where
  lo := acq
  hi := endD
  bal := fun c d => cumBalance tbl acq c d
  total := fun d =>
    cumBalance tbl acq Col.antoine d + cumBalance tbl acq Col.newInvestor d
      + cumBalance tbl acq Col.otherInvestors d

/-- `daily_invested.reindex(idx).ffill().fillna(0.0)` evaluated at a label
`i`, where the reindex target is the daily range starting at `s`: labels
before the frame's first day are NaN with nothing to forward-fill, hence 0;
so is everything when the frame ends before `s` (no frame label survives the
reindex); labels after the frame's last day forward-fill from the last day. -/
def frameAt (f : DailyFrame) (s : ℤ) (c : Col) (i : ℤ) : ℚ :=
  if i < f.lo ∨ f.hi < s then 0 else f.bal c (min i f.hi)

/-- Same forward-filled access for the stored `Total` column. -/
def frameTotalAt (f : DailyFrame) (s i : ℤ) : ℚ :=
  if i < f.lo ∨ f.hi < s then 0 else f.total (min i f.hi)

/-- The `GainBreakdown` dataclass of `engine.py`. -/
structure GainBreakdown where
  appreciation : ℚ
  guarantee : ℚ
  final : ℚ
  deriving DecidableEq, Repr

/-- `contrib_df.index.min()` for a non-empty table (on an empty table the
source raises before this value is used). -/
def minDate : ContribTable → ℤ
  | [] => 0
  | r :: rs => rs.foldl (fun m s => min m s.date) r.date

/-- `per_part_guarantee_by_investment_date(when, contrib_df, rate_annual)`
(lines 179–212 of `engine.py`): zero for every participant when
`when <= contrib_df.index.min()`; otherwise, for each row whose date is
strictly before `when`, accrue
`amount * (rate_annual * (max(days, 1) / 365))` with
`days = (when - inv_date).days`, and sum per participant column (the
`Other investors` column being the clamped residual derived from the row).
An empty table makes the source raise at `index.min()`; it is modelled as
zero. -/
def per_part_guarantee_by_investment_date
    (when : ℤ) (tbl : ContribTable) (rate : ℚ) : Col → ℚ :=
  match tbl with
  | [] => fun _ => 0
  | r :: rs =>
    if when ≤ minDate (r :: rs) then fun _ => 0
    else fun c =>
      (((r :: rs).filter (fun s => s.date < when)).map
        (fun s => rowVal s c * (rate * ((max (when - s.date) 1 : ℤ) / 365 : ℚ)))).sum

/-- `per_part_guarantee(when, acq_date, daily_invested, rate_annual)`
(lines 215–231 of `engine.py`): zero when `when <= acq_date`; otherwise the
final reindexed-and-forward-filled balance at `when` times the single blended
factor `rate_annual * (max((when - acq_date).days, 1) / 365)`. -/
def per_part_guarantee (when acq : ℤ) (f : DailyFrame) (rate : ℚ) : Col → ℚ :=
  if when ≤ acq then fun _ => 0
  else fun c => frameAt f (acq + 1) c when * (rate * ((max (when - acq) 1 : ℤ) / 365 : ℚ))

/-- One day's instantaneous share of a participant inside `gains_at_date`
(reindex window starting at `acq + 1`):
`inv[col] / inv["Total"].replace(0.0, np.nan)` followed by `fillna(0.0)`,
so the share is 0 on days where the total is 0. -/
def shareAt (f : DailyFrame) (acq : ℤ) (c : Col) (i : ℤ) : ℚ :=
  if frameTotalAt f (acq + 1) i = 0 then 0
  else frameAt f (acq + 1) c i / frameTotalAt f (acq + 1) i

/-- `shares.sum(axis=0)` over the daily index `idx = [acq+1, …, when]`. -/
def shareSum (f : DailyFrame) (when acq : ℤ) (c : Col) : ℚ :=
  ((List.range (when - acq).toNat).map
    (fun k : ℕ => shareAt f acq c (acq + 1 + (k : ℤ)))).sum

/-- `gains_at_date(when, acq_date, acq_price, price_series, daily_invested,
contrib_df)` (lines 119–176 of `engine.py`). `price_t` stands for
`float(ps.loc[pd.Timestamp(when)])` after `_ensure_on_series`; `contrib?`
is the optional `contrib_df` argument (`None` selects the fallback
final-balance guarantee). -/
def gains_at_date (when acq : ℤ) (acq_price price_t : ℚ) (f : DailyFrame)
    (contrib? : Option ContribTable) : Col → GainBreakdown :=
  if when ≤ acq then fun _ => ⟨0, 0, 0⟩
  else
    let totalApp : ℚ := max (price_t - acq_price) 0
    let totalDays : ℤ := max (when - acq) 1
    let dailyApp : ℚ := totalApp / (totalDays : ℚ)
    let app : Col → ℚ := fun c => shareSum f when acq c * dailyApp
    let gte : Col → ℚ :=
      match contrib? with
      | some tbl => per_part_guarantee_by_investment_date when tbl (15 / 100)
      | none => fun c =>
          frameAt f (acq + 1) c when
            * ((15 / 100 : ℚ) * ((max (when - acq) 1 : ℤ) / 365 : ℚ))
    let finalN : ℚ := max (app Col.newInvestor) (gte Col.newInvestor)
    let finalO : ℚ := max (app Col.otherInvestors) (gte Col.otherInvestors)
    fun c =>
      match c with
      | Col.newInvestor => ⟨app Col.newInvestor, gte Col.newInvestor, finalN⟩
      | Col.otherInvestors => ⟨app Col.otherInvestors, gte Col.otherInvestors, finalO⟩
      | Col.antoine => ⟨app Col.antoine, 0, totalApp - (finalN + finalO)⟩

/-- `exit_gains_at_date(when, acq_date, acq_price, price_series,
daily_invested, contrib_df)` (lines 234–259 of `engine.py`): rate 20% on or
after `EXIT_RATE_CUTOFF`, else 15%; the two non-controlling participants get
their guarantee accrual at that rate, Antoine gets the residual; the rate
used is returned as the second component. -/
def exit_gains_at_date (when acq : ℤ) (acq_price price_t : ℚ) (f : DailyFrame)
    (contrib? : Option ContribTable) : (Col → ℚ) × ℚ :=
  let totalApp : ℚ := max (price_t - acq_price) 0
  let rate : ℚ := if EXIT_RATE_CUTOFF ≤ when then 20 / 100 else 15 / 100
  let g : Col → ℚ :=
    match contrib? with
    | some tbl => per_part_guarantee_by_investment_date when tbl rate
    | none => per_part_guarantee when acq f rate
  let othersSum : ℚ := g Col.newInvestor + g Col.otherInvestors
  (fun c =>
    match c with
    | Col.antoine => totalApp - othersSum
    | Col.newInvestor => g Col.newInvestor
    | Col.otherInvestors => g Col.otherInvestors, rate)

/-- The investment windows on which the named contributions exceed the plan
total (`Antoine[d] + NewInvestor[d] > PlanTotal[d]`): the dates a
data-validation warning would have to let the caller enumerate. -/
def offendingDates (tbl : ContribTable) : List ℤ :=
  (tbl.filter (fun r => r.totalPlan < r.antoine + r.newInvestor)).map (fun r => r.date)

/-- Formalisation of the warning requirement of the claim: some enumeration
procedure recovers, from what `build_daily_invested` computes, exactly the
offending dates of the table it was given. -/
def surfacesWarning : Prop :=
  ∃ enum : DailyFrame → List ℤ, ∀ (tbl : ContribTable) (acq endD : ℤ),
    enum (build_daily_invested tbl acq endD) = offendingDates tbl

/-- The same contribution table with every plan total raised to at least the
named contributions, so that no window offends and every residual clamp is
exact. -/
def clampPlan (tbl : ContribTable) : ContribTable :=
  tbl.map (fun r => { r with totalPlan := max r.totalPlan (r.antoine + r.newInvestor) })

/-- A schedule with contributions staggered across two dates (day 0 and day
100), used to separate the two guarantee-accrual bases. -/
def stagTbl : ContribTable := [⟨0, 100, 0, 100⟩, ⟨100, 100, 0, 100⟩]

/-- A one-window table on which the named contributions (5 + 5) exceed the
plan total (3). -/
def overTbl : ContribTable := [⟨ACQ_DATE, 5, 5, 3⟩]

/-- The same window with the plan total exactly covered by the named
contributions (5 + 5 = 10): no offending window. -/
def exactTbl : ContribTable := [⟨ACQ_DATE, 5, 5, 10⟩]

/-- A table whose single contribution is dated 10 days before the acquisition
date. -/
def preAcqTbl : ContribTable := [⟨ACQ_DATE - 10, 100, 0, 100⟩]

/-- A table whose single contribution sits on the acquisition date. -/
def acqOnlyTbl : ContribTable := [⟨ACQ_DATE, 1188000, 0, 1188000⟩]

/-! ## Helper lemmas -/

theorem sum_map_add_distrib {α : Type} (l : List α) (g h : α → ℚ) :
    (l.map (fun r => g r + h r)).sum = (l.map g).sum + (l.map h).sum := by
  induction l with
  | nil => simp
  | cons a l ih => simp [ih]; ring

theorem sum_filter_eq_sum_ite {α : Type} (l : List α) (p : α → Bool) (f : α → ℚ) :
    ((l.filter p).map f).sum = (l.map (fun r => if p r then f r else 0)).sum := by
  induction l with
  | nil => simp
  | cons a l ih =>
    by_cases hp : p a
    · simp [List.filter_cons, hp, ih]
    · simp [List.filter_cons, hp, ih]

theorem minDate_le {tbl : ContribTable} {r : ContribRow} (hr : r ∈ tbl) :
    minDate tbl ≤ r.date := by
  obtain ⟨r0, rs, rfl⟩ : ∃ r0 rs, tbl = r0 :: rs := by
    cases tbl with
    | nil => cases hr
    | cons r0 rs => exact ⟨r0, rs, rfl⟩
  suffices h : ∀ (l : List ContribRow) (a : ℤ),
      l.foldl (fun m s => min m s.date) a ≤ a ∧
      ∀ s ∈ l, l.foldl (fun m s => min m s.date) a ≤ s.date by
    rcases List.mem_cons.mp hr with h0 | hmem
    · subst h0; exact (h rs r.date).1
    · exact (h rs r0.date).2 r hmem
  intro l
  induction l with
  | nil => simp
  | cons b l ih =>
    intro a
    refine ⟨le_trans ((ih (min a b.date)).1) (min_le_left _ _), ?_⟩
    intro s hs
    rcases List.mem_cons.mp hs with h0 | hmem
    · subst h0
      exact le_trans ((ih (min a s.date)).1) (min_le_right _ _)
    · exact (ih (min a b.date)).2 s hmem

theorem le_minDate {tbl : ContribTable} {a : ℤ} (h0 : tbl ≠ [])
    (h : ∀ r ∈ tbl, a ≤ r.date) : a ≤ minDate tbl := by
  cases tbl with
  | nil => exact absurd rfl h0
  | cons r0 rs =>
    suffices hfold : ∀ (l : List ContribRow) (b : ℤ), a ≤ b →
        (∀ s ∈ l, a ≤ s.date) → a ≤ l.foldl (fun m s => min m s.date) b by
      exact hfold rs r0.date (h r0 (List.mem_cons_self _ _))
        (fun s hs => h s (List.mem_cons_of_mem _ hs))
    intro l
    induction l with
    | nil => intro b hb _; exact hb
    | cons c l ih =>
      intro b hb hl
      exact ih (min b c.date)
        (le_min hb (hl c (List.mem_cons_self _ _)))
        (fun s hs => hl s (List.mem_cons_of_mem _ hs))

/-- With unique date labels, the reindexed daily value at label `x` is the sum
of the (at most one) row values dated `x`. -/
theorem reindexVal_eq_filter_sum {tbl : ContribTable} (c : Col) (x : ℤ)
    (hnd : (tbl.map (fun r => r.date)).Nodup) :
    reindexVal tbl c x
      = ((tbl.filter (fun r => r.date == x)).map (fun r => rowVal r c)).sum := by
  induction tbl with
  | nil => simp [reindexVal]
  | cons r rs ih =>
    rw [List.map_cons, List.nodup_cons] at hnd
    by_cases hx : r.date = x
    · have hfind : (r :: rs).find? (fun s => s.date == x) = some r :=
        List.find?_cons_of_pos _ (by simp [hx])
      have hnone : rs.filter (fun s => s.date == x) = [] := by
        rw [List.filter_eq_nil_iff]
        intro s hs hsx
        exact hnd.1 (hx ▸ (by simpa using hsx) ▸ List.mem_map_of_mem (fun r => r.date) hs)
      simp [reindexVal, hfind, List.filter_cons, hx, hnone]
    · have hfind : (r :: rs).find? (fun s => s.date == x)
          = rs.find? (fun s => s.date == x) :=
        List.find?_cons_of_neg _ (by simp [hx])
      have := ih hnd.2
      simp only [reindexVal] at this
      simp [reindexVal, hfind, List.filter_cons, hx, this]

/-- With unique date labels, the cumulative reindexed balance at day `d ≥ acq`
is the sum of the row values dated in `[acq, d]`: the embedding of
`reindex(idx_daily).fillna(0.0).cumsum()`. -/
theorem cumBalance_eq_filter_sum {tbl : ContribTable} (c : Col) {acq d : ℤ}
    (hnd : (tbl.map (fun r => r.date)).Nodup) (had : acq ≤ d) :
    cumBalance tbl acq c d
      = ((tbl.filter (fun r => acq ≤ r.date ∧ r.date ≤ d)).map
          (fun r => rowVal r c)).sum := by
  suffices h : ∀ n : ℕ,
      ((List.range (n + 1)).map (fun k : ℕ => reindexVal tbl c (acq + (k : ℤ)))).sum
        = ((tbl.filter (fun r => acq ≤ r.date ∧ r.date ≤ acq + (n : ℤ))).map
            (fun r => rowVal r c)).sum by
    have hd : d = acq + ((d - acq).toNat : ℤ) := by omega
    calc cumBalance tbl acq c d
        = ((List.range ((d - acq).toNat + 1)).map
            (fun k : ℕ => reindexVal tbl c (acq + (k : ℤ)))).sum := rfl
      _ = _ := by rw [h ((d - acq).toNat), ← hd]
  intro n
  induction n with
  | zero =>
    simp only [List.range_succ, List.range_zero, List.nil_append, List.map_cons,
      List.map_nil, List.sum_cons, List.sum_nil, Nat.cast_zero, add_zero]
    rw [reindexVal_eq_filter_sum c acq hnd]
    have hfc : tbl.filter (fun r => r.date == acq)
        = tbl.filter (fun r => decide (acq ≤ r.date ∧ r.date ≤ acq)) := by
      refine List.filter_congr fun r _ => ?_
      by_cases h : r.date = acq
      · simp [h]
      · have h1 : (r.date == acq) = false := by simp [h]
        have h2 : decide (acq ≤ r.date ∧ r.date ≤ acq) = false := by
          simp only [decide_eq_false_iff_not]
          omega
        rw [h1, h2]
    rw [hfc]
  | succ n ih =>
    rw [List.range_succ, List.map_append, List.sum_append]
    simp only [List.map_cons, List.map_nil, List.sum_cons, List.sum_nil, add_zero]
    rw [ih, reindexVal_eq_filter_sum c (acq + ((n + 1 : ℕ) : ℤ)) hnd]
    rw [sum_filter_eq_sum_ite, sum_filter_eq_sum_ite, sum_filter_eq_sum_ite,
      ← sum_map_add_distrib]
    congr 1
    refine List.map_congr_left fun r _ => ?_
    simp only [decide_eq_true_eq, beq_iff_eq]
    split_ifs <;> first | ring1 | (exfalso; omega)

/-- The guard in `per_part_guarantee_by_investment_date` is consistent with
the per-event sum: in all cases the function equals the sum, over the rows
dated strictly before `when`, of
`amount * (rate * (max(days, 1) / 365))`. -/
theorem pby_eq_filter_sum (when : ℤ) (tbl : ContribTable) (rate : ℚ) (c : Col) :
    per_part_guarantee_by_investment_date when tbl rate c
      = ((tbl.filter (fun r => r.date < when)).map
          (fun r => rowVal r c * (rate * ((max (when - r.date) 1 : ℤ) / 365 : ℚ)))).sum := by
  cases tbl with
  | nil => simp [per_part_guarantee_by_investment_date]
  | cons r0 rs =>
    by_cases hg : when ≤ minDate (r0 :: rs)
    · have hempty : (r0 :: rs).filter (fun r => r.date < when) = [] := by
        rw [List.filter_eq_nil_iff]
        intro s hs hlt
        have hmin := minDate_le hs
        simp only [decide_eq_true_eq] at hlt
        omega
      simp [per_part_guarantee_by_investment_date, hg, hempty]
    · simp [per_part_guarantee_by_investment_date, hg]

/-- Two tables with pointwise equal reindexed daily values build identical
daily frames. -/
theorem build_eq_of_reindexVal_eq {t1 t2 : ContribTable} (a e : ℤ)
    (h : ∀ c x, reindexVal t1 c x = reindexVal t2 c x) :
    build_daily_invested t1 a e = build_daily_invested t2 a e := by
  have hc : ∀ c d, cumBalance t1 a c d = cumBalance t2 a c d := by
    intro c d
    unfold cumBalance
    exact congrArg List.sum (List.map_congr_left fun k _ => h c _)
  unfold build_daily_invested
  congr 1
  · funext c d
    exact hc c d
  · funext d
    rw [hc, hc, hc]

/-- Raising a row's plan total to the named contributions leaves every
participant column value unchanged (the clamp already treated the residual
as zero). -/
theorem rowVal_clamp (r : ContribRow) (c : Col) :
    rowVal { r with totalPlan := max r.totalPlan (r.antoine + r.newInvestor) } c
      = rowVal r c := by
  cases c
  · rfl
  · rfl
  · show clip0 (max r.totalPlan (r.antoine + r.newInvestor) - r.antoine - r.newInvestor)
      = clip0 (r.totalPlan - r.antoine - r.newInvestor)
    unfold clip0
    rcases le_total r.totalPlan (r.antoine + r.newInvestor) with h | h
    · rw [max_eq_right h,
        show r.antoine + r.newInvestor - r.antoine - r.newInvestor = 0 from by ring,
        max_self, max_eq_right (by linarith : r.totalPlan - r.antoine - r.newInvestor ≤ 0)]
    · rw [max_eq_left h]

theorem reindexVal_clampPlan (tbl : ContribTable) (c : Col) (x : ℤ) :
    reindexVal (clampPlan tbl) c x = reindexVal tbl c x := by
  induction tbl with
  | nil => rfl
  | cons r rs ih =>
    show reindexVal ({ r with totalPlan := max r.totalPlan (r.antoine + r.newInvestor) }
        :: clampPlan rs) c x = reindexVal (r :: rs) c x
    unfold reindexVal
    by_cases hx : r.date = x
    · rw [List.find?_cons_of_pos _ (by simp [hx]), List.find?_cons_of_pos _ (by simp [hx])]
      exact rowVal_clamp r c
    · rw [List.find?_cons_of_neg _ (by simp [hx]), List.find?_cons_of_neg _ (by simp [hx])]
      exact ih

/-- The offending table `overTbl` and the clean table `exactTbl` build the
same daily frame: the output of `build_daily_invested` carries no trace of
the excess contribution. -/
theorem overTbl_exactTbl_same_frame (a e : ℤ) :
    build_daily_invested overTbl a e = build_daily_invested exactTbl a e := by
  refine build_eq_of_reindexVal_eq a e fun c x => ?_
  unfold reindexVal overTbl exactTbl
  by_cases hx : ACQ_DATE = x
  · rw [List.find?_cons_of_pos _ (by simp [hx]), List.find?_cons_of_pos _ (by simp [hx])]
    cases c <;> norm_num [rowVal, residualOf, clip0, max_def]
  · rw [List.find?_cons_of_neg _ (by simp [hx]), List.find?_cons_of_neg _ (by simp [hx])]

/-! ## Claim theorems -/

/-- C1: for every contribution table, price value, and evaluation date
strictly after the acquisition date, the three final amounts of the SALE rule
`gains_at_date` sum exactly to `max(price(when) - acq_price, 0)`, and so do
the three amounts of the EXIT rule `exit_gains_at_date` (residual
construction). -/
theorem sale_and_exit_reconciliation (when acq : ℤ) (acq_price price_t : ℚ)
    (f : DailyFrame) (contrib? : Option ContribTable) (h : acq < when) :
    (gains_at_date when acq acq_price price_t f contrib? Col.antoine).final
      + (gains_at_date when acq acq_price price_t f contrib? Col.newInvestor).final
      + (gains_at_date when acq acq_price price_t f contrib? Col.otherInvestors).final
      = max (price_t - acq_price) 0
    ∧ (exit_gains_at_date when acq acq_price price_t f contrib?).1 Col.antoine
      + (exit_gains_at_date when acq acq_price price_t f contrib?).1 Col.newInvestor
      + (exit_gains_at_date when acq acq_price price_t f contrib?).1 Col.otherInvestors
      = max (price_t - acq_price) 0 := by
  constructor
  · simp only [gains_at_date, if_neg (not_le.mpr h)]
    ring
  · simp only [exit_gains_at_date]
    ring

/-- C1 witness: the reconciliation theorem instantiated at a concrete input
(`when` 30 days past acquisition, one funded participant, price 100 above the
acquisition price). -/
theorem sale_and_exit_reconciliation_witness :
    (gains_at_date 30 0 1000 1100 (build_daily_invested [⟨0, 7, 5, 20⟩] 0 30)
        (some [⟨0, 7, 5, 20⟩]) Col.antoine).final
      + (gains_at_date 30 0 1000 1100 (build_daily_invested [⟨0, 7, 5, 20⟩] 0 30)
          (some [⟨0, 7, 5, 20⟩]) Col.newInvestor).final
      + (gains_at_date 30 0 1000 1100 (build_daily_invested [⟨0, 7, 5, 20⟩] 0 30)
          (some [⟨0, 7, 5, 20⟩]) Col.otherInvestors).final
      = max (1100 - 1000) 0
    ∧ (exit_gains_at_date 30 0 1000 1100 (build_daily_invested [⟨0, 7, 5, 20⟩] 0 30)
          (some [⟨0, 7, 5, 20⟩])).1 Col.antoine
      + (exit_gains_at_date 30 0 1000 1100 (build_daily_invested [⟨0, 7, 5, 20⟩] 0 30)
          (some [⟨0, 7, 5, 20⟩])).1 Col.newInvestor
      + (exit_gains_at_date 30 0 1000 1100 (build_daily_invested [⟨0, 7, 5, 20⟩] 0 30)
          (some [⟨0, 7, 5, 20⟩])).1 Col.otherInvestors
      = max (1100 - 1000) 0 :=
  sale_and_exit_reconciliation 30 0 1000 1100
    (build_daily_invested [⟨0, 7, 5, 20⟩] 0 30) (some [⟨0, 7, 5, 20⟩]) (by norm_num)

/-- C4: `exit_gains_at_date` uses rate 20% exactly when
`when ≥ EXIT_RATE_CUTOFF` (= the ordinal of 2028-09-30) and 15% strictly
before; the two non-controlling amounts are the guarantee accrual at the
returned rate; the rate used is the second component of the result. -/
theorem exit_rate_selection (when acq : ℤ) (acq_price price_t : ℚ)
    (f : DailyFrame) (tbl : ContribTable) :
    (exit_gains_at_date when acq acq_price price_t f (some tbl)).2
        = (if EXIT_RATE_CUTOFF ≤ when then (20 : ℚ) / 100 else (15 : ℚ) / 100)
    ∧ EXIT_RATE_CUTOFF = toOrd 2028 9 30
    ∧ (exit_gains_at_date when acq acq_price price_t f (some tbl)).1 Col.newInvestor
        = per_part_guarantee_by_investment_date when tbl
            ((exit_gains_at_date when acq acq_price price_t f (some tbl)).2)
            Col.newInvestor
    ∧ (exit_gains_at_date when acq acq_price price_t f (some tbl)).1 Col.otherInvestors
        = per_part_guarantee_by_investment_date when tbl
            ((exit_gains_at_date when acq acq_price price_t f (some tbl)).2)
            Col.otherInvestors :=
  ⟨rfl, rfl, rfl, rfl⟩

/-- C7: the derived `Other investors` value of every contribution row equals
`max(PlanTotal - Antoine - NewInvestor, 0)`, is never negative, and hence the
`Other investors` daily balance built by `build_daily_invested` is never
negative either. -/
theorem residual_nonneg_max (r : ContribRow) (tbl : ContribTable) (acq endD d : ℤ) :
    rowVal r Col.otherInvestors = max (r.totalPlan - r.antoine - r.newInvestor) 0
    ∧ 0 ≤ rowVal r Col.otherInvestors
    ∧ 0 ≤ (build_daily_invested tbl acq endD).bal Col.otherInvestors d := by
  refine ⟨rfl, le_max_right _ _, ?_⟩
  have hnn : ∀ x : ℤ, 0 ≤ reindexVal tbl Col.otherInvestors x := by
    intro x
    unfold reindexVal
    cases tbl.find? (fun s => s.date == x) with
    | none => exact le_refl 0
    | some s => exact le_max_right _ _
  apply List.sum_nonneg
  intro q hq
  simp only [build_daily_invested, cumBalance, List.mem_map] at hq
  obtain ⟨k, _, rfl⟩ := hq
  exact hnn _

/-- C2: for every evaluation date strictly after the acquisition date, the
SALE rule gives each non-controlling participant the appreciation-based
amount `sum over d in (acq, when] of daily_appreciation * share(d)` (share 0
on zero-total days) with
`daily_appreciation = max(price(when) - acq_price, 0) / days_between`, the
guarantee at 15%, and a final amount equal to the max of the two. -/
theorem sale_noncontrolling_breakdown (when acq : ℤ) (acq_price price_t : ℚ)
    (f : DailyFrame) (tbl : ContribTable) (c : Col) (h : acq < when)
    (hc : c = Col.newInvestor ∨ c = Col.otherInvestors) :
    (gains_at_date when acq acq_price price_t f (some tbl) c).appreciation
        = ((List.range (when - acq).toNat).map
            (fun k : ℕ => (max (price_t - acq_price) 0 / ((when - acq : ℤ) : ℚ))
               * shareAt f acq c (acq + 1 + (k : ℤ)))).sum
    ∧ (gains_at_date when acq acq_price price_t f (some tbl) c).guarantee
        = per_part_guarantee_by_investment_date when tbl (15 / 100) c
    ∧ (gains_at_date when acq acq_price price_t f (some tbl) c).final
        = max ((gains_at_date when acq acq_price price_t f (some tbl) c).appreciation)
            ((gains_at_date when acq acq_price price_t f (some tbl) c).guarantee) := by
  have hmax : max (when - acq) 1 = when - acq := by omega
  rcases hc with hc | hc <;> subst hc <;>
    simp only [gains_at_date, if_neg (not_le.mpr h), and_true, true_and, and_self] <;>
    rw [List.sum_map_mul_left, hmax, mul_comm] <;> rfl

/-- C2 witness: the breakdown theorem instantiated for the new investor one
day after acquisition on a one-row table. -/
theorem sale_noncontrolling_breakdown_witness :
    (gains_at_date 1 0 1000 1100 (build_daily_invested [⟨0, 7, 5, 20⟩] 0 1)
        (some [⟨0, 7, 5, 20⟩]) Col.newInvestor).appreciation
        = ((List.range ((1 : ℤ) - 0).toNat).map
            (fun k : ℕ => (max ((1100 : ℚ) - 1000) 0 / (((1 : ℤ) - 0 : ℤ) : ℚ))
               * shareAt (build_daily_invested [⟨0, 7, 5, 20⟩] 0 1) 0 Col.newInvestor
                   (0 + 1 + (k : ℤ)))).sum
    ∧ (gains_at_date 1 0 1000 1100 (build_daily_invested [⟨0, 7, 5, 20⟩] 0 1)
        (some [⟨0, 7, 5, 20⟩]) Col.newInvestor).guarantee
        = per_part_guarantee_by_investment_date 1 [⟨0, 7, 5, 20⟩] (15 / 100)
            Col.newInvestor
    ∧ (gains_at_date 1 0 1000 1100 (build_daily_invested [⟨0, 7, 5, 20⟩] 0 1)
        (some [⟨0, 7, 5, 20⟩]) Col.newInvestor).final
        = max ((gains_at_date 1 0 1000 1100 (build_daily_invested [⟨0, 7, 5, 20⟩] 0 1)
            (some [⟨0, 7, 5, 20⟩]) Col.newInvestor).appreciation)
            ((gains_at_date 1 0 1000 1100 (build_daily_invested [⟨0, 7, 5, 20⟩] 0 1)
              (some [⟨0, 7, 5, 20⟩]) Col.newInvestor).guarantee) :=
  sale_noncontrolling_breakdown 1 0 1000 1100
    (build_daily_invested [⟨0, 7, 5, 20⟩] 0 1) [⟨0, 7, 5, 20⟩] Col.newInvestor
    (by norm_num) (Or.inl rfl)

/-- C3: the per-participant guarantee accrual is the sum, over that
participant's contribution events dated strictly before `when`, of
`amount * rate * (days / 365)` with `days = days_between(event_date, when)`
(simple actual/365 day-count), and events dated on or after `when` contribute
exactly zero. -/
theorem guarantee_accrues_per_event (when : ℤ) (tbl : ContribTable) (rate : ℚ) :
    (∀ c, per_part_guarantee_by_investment_date when tbl rate c
        = ((tbl.filter (fun r => r.date < when)).map
            (fun r => rowVal r c * (rate * (((when - r.date : ℤ) : ℚ) / 365)))).sum)
    ∧ (∀ (r : ContribRow) (c : Col), when ≤ r.date →
        per_part_guarantee_by_investment_date when (r :: tbl) rate c
          = per_part_guarantee_by_investment_date when tbl rate c) := by
  have key : ∀ (t : ContribTable) (c : Col),
      per_part_guarantee_by_investment_date when t rate c
        = ((t.filter (fun r => r.date < when)).map
            (fun r => rowVal r c * (rate * (((when - r.date : ℤ) : ℚ) / 365)))).sum := by
    intro t c
    rw [pby_eq_filter_sum]
    refine congrArg List.sum (List.map_congr_left fun s hs => ?_)
    have hs' : s.date < when := by
      have := List.of_mem_filter hs
      simpa using this
    have hmax : max (when - s.date) 1 = when - s.date := by omega
    rw [hmax]
  refine ⟨fun c => key tbl c, ?_⟩
  intro r c hr
  rw [key, key]
  have hfc : (r :: tbl).filter (fun s => s.date < when)
      = tbl.filter (fun s => s.date < when) := by
    rw [List.filter_cons_of_neg]
    simp
    omega
  rw [hfc]

/-- C3 witness: the per-event accrual theorem instantiated at `when = 10`
days, a one-event table, and an extra event dated exactly at `when`
(contributing zero). -/
theorem guarantee_accrues_per_event_witness :
    per_part_guarantee_by_investment_date 10 (⟨10, 7, 7, 20⟩ :: [⟨0, 50, 0, 50⟩])
        (15 / 100) Col.antoine
      = per_part_guarantee_by_investment_date 10 [⟨0, 50, 0, 50⟩] (15 / 100)
          Col.antoine :=
  (guarantee_accrues_per_event 10 [⟨0, 50, 0, 50⟩] (15 / 100)).2
    ⟨10, 7, 7, 20⟩ Col.antoine (by norm_num)

/-- C9: the per-contribution-event guarantee accrual and the blended
final-balance approximation are not equivalent: on a schedule staggered over
two dates they return different amounts for Antoine at day 200 and rate
15%. -/
theorem guarantee_bases_differ :
    per_part_guarantee_by_investment_date 200 stagTbl (15 / 100) Col.antoine
      ≠ per_part_guarantee 200 0 (build_daily_invested stagTbl 0 200) (15 / 100)
          Col.antoine := by
  rw [pby_eq_filter_sum]
  have h1 : per_part_guarantee 200 0 (build_daily_invested stagTbl 0 200) (15 / 100)
        Col.antoine
      = cumBalance stagTbl 0 Col.antoine 200
          * ((15 : ℚ) / 100 * (((max (200 - 0) 1 : ℤ) : ℚ) / 365)) := by
    simp [per_part_guarantee, frameAt, build_daily_invested]
  rw [h1, cumBalance_eq_filter_sum Col.antoine (by decide) (by norm_num)]
  norm_num [stagTbl, rowVal]

/-- C6 counterexample: `overTbl` offends on the acquisition-date window and
`exactTbl` does not, yet `build_daily_invested` computes identical outputs
for both, so no procedure can recover the offending dates from what the
computation produces: no data-validation warning is surfaced. -/
theorem warning_not_surfaced_cex :
    offendingDates overTbl = [ACQ_DATE] ∧ offendingDates exactTbl = []
      ∧ ¬ surfacesWarning := by
  have e1 : offendingDates overTbl = [ACQ_DATE] := by
    norm_num [offendingDates, overTbl]
  have e2 : offendingDates exactTbl = [] := by
    norm_num [offendingDates, exactTbl]
  refine ⟨e1, e2, ?_⟩
  rintro ⟨enum, henum⟩
  have h1 := henum overTbl ACQ_DATE (ACQ_DATE + 1)
  have h2 := henum exactTbl ACQ_DATE (ACQ_DATE + 1)
  rw [overTbl_exactTbl_same_frame ACQ_DATE (ACQ_DATE + 1), h2, e2] at h1
  rw [e1] at h1
  exact absurd h1 (by simp)

/-- C6 amended: on windows where the named contributions exceed the plan
total the computation proceeds with the `Other investors` residual clamped
to zero — the built frame is identical to the one built from the table whose
plan totals are raised to the named contributions — but silently: no
data-validation warning is surfaced. -/
theorem residual_clamped_silently (tbl : ContribTable) (acq endD : ℤ) :
    build_daily_invested tbl acq endD = build_daily_invested (clampPlan tbl) acq endD
    ∧ ∀ r ∈ tbl, r.totalPlan < r.antoine + r.newInvestor →
        rowVal r Col.otherInvestors = 0 := by
  constructor
  · exact build_eq_of_reindexVal_eq acq endD
      (fun c x => (reindexVal_clampPlan tbl c x).symm)
  · intro r _ hlt
    show clip0 (r.totalPlan - r.antoine - r.newInvestor) = 0
    unfold clip0
    rw [max_eq_right (by linarith : r.totalPlan - r.antoine - r.newInvestor ≤ 0)]

/-- C6 witness: the amended theorem instantiated on the offending one-window
table `overTbl`. -/
theorem residual_clamped_silently_witness :
    build_daily_invested overTbl ACQ_DATE (ACQ_DATE + 1)
      = build_daily_invested (clampPlan overTbl) ACQ_DATE (ACQ_DATE + 1)
    ∧ rowVal ⟨ACQ_DATE, 5, 5, 3⟩ Col.otherInvestors = 0 :=
  ⟨(residual_clamped_silently overTbl ACQ_DATE (ACQ_DATE + 1)).1,
   (residual_clamped_silently overTbl ACQ_DATE (ACQ_DATE + 1)).2
     ⟨ACQ_DATE, 5, 5, 3⟩ (List.mem_singleton.mpr rfl) (by norm_num)⟩

/-- C5 counterexample: with a price series whose value at the acquisition
date exceeds the acquisition price by 100 (e.g. a constant series at
`ACQ_PRICE + 100`), `exit_gains_at_date` evaluated at `when = acq_date`
returns 100 for Antoine, not zero. -/
theorem exit_at_acq_nonzero_cex :
    (exit_gains_at_date ACQ_DATE ACQ_DATE ACQ_PRICE (ACQ_PRICE + 100)
        (build_daily_invested acqOnlyTbl ACQ_DATE ACQ_DATE) (some acqOnlyTbl)).1
        Col.antoine = 100
    ∧ (exit_gains_at_date ACQ_DATE ACQ_DATE ACQ_PRICE (ACQ_PRICE + 100)
        (build_daily_invested acqOnlyTbl ACQ_DATE ACQ_DATE) (some acqOnlyTbl)).1
        Col.antoine ≠ 0 := by
  have hg : ∀ (rate : ℚ) (c : Col),
      per_part_guarantee_by_investment_date ACQ_DATE acqOnlyTbl rate c = 0 := by
    intro rate c
    rw [pby_eq_filter_sum]
    rw [show acqOnlyTbl.filter (fun r => r.date < ACQ_DATE) = [] from by
      rw [List.filter_eq_nil_iff]
      intro s hs
      simp [acqOnlyTbl] at hs
      simp [hs]]
    simp
  have hmain : (exit_gains_at_date ACQ_DATE ACQ_DATE ACQ_PRICE (ACQ_PRICE + 100)
      (build_daily_invested acqOnlyTbl ACQ_DATE ACQ_DATE) (some acqOnlyTbl)).1
      Col.antoine = 100 := by
    simp only [exit_gains_at_date]
    rw [hg, hg]
    norm_num [max_def]
  exact ⟨hmain, by rw [hmain]; norm_num⟩

/-- C5 amended: the SALE rule returns the all-zero breakdown for all three
participants at every `when ≤ acq_date` (unconditionally); the EXIT rule at
`when = acq_date` returns zero for all three participants provided the price
looked up at the acquisition date does not exceed the acquisition price and
no contribution event is dated before the acquisition date. Neither raises
(both are total functions). -/
theorem zero_horizon_amended (when acq : ℤ) (acq_price price_t : ℚ)
    (f : DailyFrame) (contrib? : Option ContribTable) (tbl : ContribTable)
    (hw : when ≤ acq) :
    (∀ c, gains_at_date when acq acq_price price_t f contrib? c = ⟨0, 0, 0⟩)
    ∧ (price_t ≤ acq_price → (∀ r ∈ tbl, acq ≤ r.date) →
        ∀ c, (exit_gains_at_date acq acq acq_price price_t f (some tbl)).1 c = 0) := by
  constructor
  · intro c
    simp only [gains_at_date, if_pos hw]
  · intro hp hd c
    have hg : ∀ (rate : ℚ) (c : Col),
        per_part_guarantee_by_investment_date acq tbl rate c = 0 := by
      intro rate c
      rw [pby_eq_filter_sum]
      rw [show tbl.filter (fun r => r.date < acq) = [] from by
        rw [List.filter_eq_nil_iff]
        intro s hs hlt
        have := hd s hs
        simp at hlt
        omega]
      simp
    have htot : max (price_t - acq_price) 0 = 0 :=
      max_eq_right (by linarith)
    cases c
    · simp only [exit_gains_at_date]
      rw [hg, hg, htot]
      ring
    · simp only [exit_gains_at_date]
      rw [hg]
    · simp only [exit_gains_at_date]
      rw [hg]

/-- C5 witness: the amended zero-horizon theorem instantiated at
`when = acq = 0`, price equal to the acquisition price, and a one-row table
dated on the acquisition date. -/
theorem zero_horizon_amended_witness :
    gains_at_date 0 0 10 10 (build_daily_invested [⟨0, 5, 0, 5⟩] 0 0) none
        Col.antoine = ⟨0, 0, 0⟩
    ∧ (exit_gains_at_date 0 0 10 10 (build_daily_invested [⟨0, 5, 0, 5⟩] 0 0)
        (some [⟨0, 5, 0, 5⟩])).1 Col.antoine = 0 :=
  ⟨(zero_horizon_amended 0 0 10 10 (build_daily_invested [⟨0, 5, 0, 5⟩] 0 0) none
      [⟨0, 5, 0, 5⟩] (by norm_num)).1 Col.antoine,
   (zero_horizon_amended 0 0 10 10 (build_daily_invested [⟨0, 5, 0, 5⟩] 0 0) none
      [⟨0, 5, 0, 5⟩] (by norm_num)).2 (by norm_num)
     (by intro r hr; simp at hr; simp [hr]) Col.antoine⟩

/-- C8 counterexample: on a table whose single contribution is dated 10 days
before the acquisition date, the built `Total` at the acquisition date is 0,
while the sum of all contributions dated on or before that day is 100: the
pre-acquisition row is dropped by the reindex. -/
theorem total_misses_preacq_cex :
    (build_daily_invested preAcqTbl ACQ_DATE (ACQ_DATE + 5)).total ACQ_DATE = 0
    ∧ ((preAcqTbl.filter (fun r => r.date ≤ ACQ_DATE)).map
        (fun r => r.antoine + r.newInvestor + rowVal r Col.otherInvestors)).sum
      = 100 := by
  constructor
  · have hre : ∀ c, reindexVal preAcqTbl c ACQ_DATE = 0 := by
      intro c
      unfold reindexVal preAcqTbl
      rw [List.find?_cons_of_neg _ (by simp)]
      rfl
    have hcb : ∀ c, cumBalance preAcqTbl ACQ_DATE c ACQ_DATE = 0 := by
      intro c
      unfold cumBalance
      rw [show ((ACQ_DATE - ACQ_DATE).toNat + 1) = 1 from by simp]
      simp only [List.range_succ, List.range_zero, List.nil_append, List.map_cons,
        List.map_nil, List.sum_cons, List.sum_nil, Nat.cast_zero, add_zero]
      exact hre c
    show cumBalance preAcqTbl ACQ_DATE Col.antoine ACQ_DATE
        + cumBalance preAcqTbl ACQ_DATE Col.newInvestor ACQ_DATE
        + cumBalance preAcqTbl ACQ_DATE Col.otherInvestors ACQ_DATE = 0
    rw [hcb, hcb, hcb]
    norm_num
  · rw [show preAcqTbl.filter (fun r => r.date ≤ ACQ_DATE) = preAcqTbl from by
      rw [List.filter_eq_self]
      intro r hr
      simp [preAcqTbl] at hr
      simp [hr]]
    norm_num [preAcqTbl, rowVal, residualOf, clip0, max_def]

/-- C8 amended: on a table with unique window dates, the `Total` balance of
`build_daily_invested` at any day `d` of the built range equals the sum of
all contributions (named columns plus the derived residual) whose dates lie
in `[acq_date, d]`; rows dated before the acquisition date (or after the end
of the range) are excluded. -/
theorem total_counts_in_range_contributions (tbl : ContribTable) (acq endD d : ℤ)
    (hnd : (tbl.map (fun r => r.date)).Nodup) (h1 : acq ≤ d) (h2 : d ≤ endD) :
    (build_daily_invested tbl acq endD).total d
      = ((tbl.filter (fun r => acq ≤ r.date ∧ r.date ≤ d)).map
          (fun r => r.antoine + r.newInvestor + rowVal r Col.otherInvestors)).sum := by
  show cumBalance tbl acq Col.antoine d + cumBalance tbl acq Col.newInvestor d
      + cumBalance tbl acq Col.otherInvestors d = _
  rw [cumBalance_eq_filter_sum Col.antoine hnd h1,
    cumBalance_eq_filter_sum Col.newInvestor hnd h1,
    cumBalance_eq_filter_sum Col.otherInvestors hnd h1,
    ← sum_map_add_distrib, ← sum_map_add_distrib]
  rfl

/-- C8 witness: the amended total theorem instantiated on a concrete
one-window table. -/
theorem total_counts_in_range_contributions_witness :
    (build_daily_invested [⟨0, 10, 5, 20⟩] 0 2).total 1
      = (([⟨0, 10, 5, 20⟩].filter
            (fun r : ContribRow => 0 ≤ r.date ∧ r.date ≤ 1)).map
          (fun r => r.antoine + r.newInvestor + rowVal r Col.otherInvestors)).sum :=
  total_counts_in_range_contributions [⟨0, 10, 5, 20⟩] 0 2 1 (by simp)
    (by norm_num) (by norm_num)

/-- C10: a contribution row dated strictly before `acq_date` or strictly
after `end_date` is silently dropped by `build_daily_invested`: adding such
a row changes neither any participant balance nor the `Total` at any day of
the built range, and no error is raised (the function is total). -/
theorem out_of_range_contribution_dropped (tbl : ContribTable) (acq endD : ℤ)
    (r : ContribRow) (hr : r.date < acq ∨ endD < r.date) :
    (∀ c d, acq ≤ d → d ≤ endD →
      (build_daily_invested (r :: tbl) acq endD).bal c d
        = (build_daily_invested tbl acq endD).bal c d)
    ∧ (∀ d, acq ≤ d → d ≤ endD →
      (build_daily_invested (r :: tbl) acq endD).total d
        = (build_daily_invested tbl acq endD).total d) := by
  have hb : ∀ c d, acq ≤ d → d ≤ endD →
      cumBalance (r :: tbl) acq c d = cumBalance tbl acq c d := by
    intro c d h1 h2
    unfold cumBalance
    refine congrArg List.sum (List.map_congr_left fun k hk => ?_)
    have hk' : (k : ℤ) ≤ d - acq := by
      simp only [List.mem_range] at hk
      omega
    unfold reindexVal
    have hfind : List.find? (fun s => s.date == acq + (k : ℤ)) (r :: tbl)
        = List.find? (fun s => s.date == acq + (k : ℤ)) tbl :=
      List.find?_cons_of_neg tbl (by simp only [beq_iff_eq]; omega)
    rw [hfind]
  exact ⟨fun c d h1 h2 => hb c d h1 h2, fun d h1 h2 => by
    show cumBalance (r :: tbl) acq Col.antoine d
        + cumBalance (r :: tbl) acq Col.newInvestor d
        + cumBalance (r :: tbl) acq Col.otherInvestors d = _
    rw [hb _ _ h1 h2, hb _ _ h1 h2, hb _ _ h1 h2]
    rfl⟩

/-- C10 witness: a row dated at day -3, outside the built range `[0, 5]`,
leaves Antoine's balance at day 2 unchanged. -/
theorem out_of_range_contribution_dropped_witness :
    (build_daily_invested (⟨-3, 50, 0, 50⟩ :: [⟨0, 1, 0, 1⟩]) 0 5).bal
        Col.antoine 2
      = (build_daily_invested [⟨0, 1, 0, 1⟩] 0 5).bal Col.antoine 2 :=
  (out_of_range_contribution_dropped [⟨0, 1, 0, 1⟩] 0 5 ⟨-3, 50, 0, 50⟩
    (Or.inl (by norm_num))).1 Col.antoine 2 (by norm_num) (by norm_num)

end OasisHorizon
